import Mathlib

/-!
Verification of the Alibaba product-image scraper (`scraper.js`, with the
improved variant embedded in `IMPROVEMENTS.md`).

JavaScript strings are modelled as `List Char`.  Each regular expression of
the source is compiled by hand into an executable scanner over `List Char`,
following JavaScript leftmost-match semantics; the regex alternations of the
source are alternation-ordered literal searches (all alternatives of each
size-marker alternation are mutually exclusive at a given position, so the
order of alternatives is immaterial).  Stateful parts (the URL store, the
download loop, the retry loop, the stream-event handlers of a single
download) are modelled as explicit state-passing functions.
-/

namespace Scraper

/-- JavaScript strings as character lists. -/
abbrev Str := List Char

/-- Characters removed by `match.replace(/['"]/g, '')`. -/
def isQuoteCh (c : Char) : Bool := c == '\'' || c == '"'

/-- Whitespace characters removed by `String.prototype.trim`
(the ASCII ones; candidate URLs contain no exotic Unicode spaces). -/
def isWsCh (c : Char) : Bool :=
  c == ' ' || c == '\t' || c == '\n' || c == '\r' || c == '\x0b' || c == '\x0c'

/-- `match.replace(/['"]/g, '')`: drop every quote character. -/
def removeQuotes (s : Str) : Str := s.filter (fun c => !isQuoteCh c)

/-- `String.prototype.trim`: drop whitespace at both ends. -/
def jsTrim (s : Str) : Str :=
  ((s.dropWhile isWsCh).reverse.dropWhile isWsCh).reverse

/-- `let cleanUrl = match.replace(/['"]/g, '').trim();` -/
def cleanL (s : Str) : Str := jsTrim (removeQuotes s)

/-- `swL n s`: the needle `n` is a prefix of `s` (anchored match). -/
def swL : Str → Str → Bool
  | [], _ => true
  | _ :: _, [] => false
  | a :: as, b :: bs => a == b && swL as bs

/-- `subL n s`: the needle `n` occurs as a contiguous substring of `s`
(JavaScript `String.prototype.includes` / an unanchored literal regex). -/
def subL (n : Str) : Str → Bool
  | [] => n.isEmpty
  | b :: bs => swL n (b :: bs) || subL n bs

/-- `s.map Char.toLower`: used to model `/.../i` case-insensitive regexes. -/
def lowerL (s : Str) : Str := s.map Char.toLower

/-- Case-insensitive substring search (a `/literal/i` regex test). -/
def subCI (n s : Str) : Bool := subL (lowerL n) (lowerL s)

/-- The high-resolution size markers of
`cleanUrl.match(/_960x960|_800x800|_1200x1200|_1600x1600/)`. -/
def highMarkers : List Str :=
  ["_960x960".toList, "_800x800".toList, "_1200x1200".toList, "_1600x1600".toList]

/-- The low-resolution size markers of
`cleanUrl.match(/_50x50|_100x100|_80x80/)`. -/
def lowMarkers : List Str :=
  ["_50x50".toList, "_100x100".toList, "_80x80".toList]

/-- `cleanUrl.match(/_960x960|_800x800|_1200x1200|_1600x1600/)` as a Bool. -/
def hasHigh (s : Str) : Bool := highMarkers.any (fun m => subL m s)

/-- `cleanUrl.match(/_50x50|_100x100|_80x80/)` as a Bool. -/
def hasLow (s : Str) : Bool := lowMarkers.any (fun m => subL m s)

/-- Does `_\d+x\d+` match at the head of `s`?  (Greedy digit runs are exact
here because digits and `x` are disjoint, so no backtracking can occur.) -/
def sizeAt (s : Str) : Bool :=
  match s with
  | [] => false
  | c :: r =>
    c == '_' && !(r.takeWhile Char.isDigit).isEmpty &&
      (match r.dropWhile Char.isDigit with
       | [] => false
       | x :: r2 => x == 'x' && !(r2.takeWhile Char.isDigit).isEmpty)

/-- `s.match(/_\d+x\d+/)`: the pattern matches somewhere in `s`. -/
def hasSizeM : Str → Bool
  | [] => false
  | c :: t => sizeAt (c :: t) || hasSizeM t

/-- The replacement text `'_960x960q80'`. -/
def repl960 : Str := "_960x960q80".toList

/-- Length of the low-res marker alternative matching at the head of `s`,
if any (`/_50x50|_100x100|_80x80/` anchored at this position; the
alternatives differ in their second character, so at most one matches). -/
def lowAt (s : Str) : Option Nat :=
  if swL "_50x50".toList s then some 6
  else if swL "_100x100".toList s then some 8
  else if swL "_80x80".toList s then some 6
  else none

/-- Fuel-indexed engine for
`baseUrl.replace(/_50x50|_100x100|_80x80/g, '_960x960q80')`:
scan left to right, replace each non-overlapping leftmost occurrence,
continue after the matched text.  The fuel only bounds recursion depth;
`replaceLow` supplies `s.length`, which never runs out. -/
def replaceLowF : Nat → Str → Str
  | 0, s => s
  | _ + 1, [] => []
  | f + 1, c :: t =>
    match lowAt (c :: t) with
    | some n => repl960 ++ replaceLowF f (t.drop (n - 1))
    | none => c :: replaceLowF f t

/-- `baseUrl.replace(/_50x50|_100x100|_80x80/g, '_960x960q80')`. -/
def replaceLow (s : Str) : Str := replaceLowF s.length s

/-- `c != '?'`: the character is not a query separator. -/
def notQ (c : Char) : Bool := c != '?'

/-- `urlParts[0]` of `cleanUrl.split('?')`: the text before the first `?`. -/
def baseOf (s : Str) : Str := s.takeWhile notQ

/-- `urlParts[1] ? '?' + urlParts[1] : ''` of `cleanUrl.split('?')`:
the first `?` plus the text up to the second `?`, or empty when there is
no `?` or the segment between the first and second `?` is empty
(JavaScript `''` is falsy). -/
def quSeg (s : Str) : Str :=
  match s.dropWhile notQ with
  | [] => []
  | _ :: r =>
    if (r.takeWhile notQ).isEmpty then [] else '?' :: r.takeWhile notQ

/-- The query component of a URL string: the text after the first `?`
(empty when there is no `?`). -/
def queryOf (s : Str) : Str := (s.dropWhile notQ).drop 1

/-- The recognized image extensions, in the source's alternation order
`(jpg|jpeg|png|webp|gif)`. -/
def extAlts : List Str :=
  ["jpg".toList, "jpeg".toList, "png".toList, "webp".toList, "gif".toList]

/-- `baseUrl.match(/\.(jpg|jpeg|png|webp|gif)$/i)`, returning the split
`(stem, extension-with-original-case)` around the final dot when the text
after the last `.` is (case-insensitively) a recognized extension. -/
def extSplit (s : Str) : Option (Str × Str) :=
  match s.reverse.dropWhile (fun c => c != '.') with
  | [] => none
  | _ :: stemRev =>
    if extAlts.contains (lowerL (s.reverse.takeWhile (fun c => c != '.')).reverse)
    then some (stemRev.reverse, (s.reverse.takeWhile (fun c => c != '.')).reverse)
    else none

/-- `cleanUrl.includes('alicdn.com')`. -/
def hasAli (s : Str) : Bool := subL "alicdn.com".toList s

/-- `cleanUrl.startsWith('data:')`. -/
def dataPref (s : Str) : Bool := swL "data:".toList s

/-- The size-upgrade branch chain of `extractFromResponse` on the cleaned
candidate: keep already-high-res URLs, upgrade low-res size markers in the
path segment, or insert the high-res suffix before the extension of a
suffix-free Alibaba CDN URL — splitting and rejoining around `?`. -/
def canonCore (w : Str) : Str :=
  if hasHigh w then w
  else if hasLow w then replaceLow (baseOf w) ++ quSeg w
  else if hasAli w && !hasSizeM w then
    match extSplit (baseOf w) with
    | some (stem, e) =>
      if hasSizeM (baseOf w) then w
      else stem ++ repl960 ++ '.' :: e ++ quSeg w
    | none => w
  else w

/-- The full per-candidate canonicalization step of `extractFromResponse`:
quote/whitespace cleanup, rejection of `data:` URIs, then the size-upgrade
branch chain.  `none` models the `return` that skips data URIs. -/
def canonList (s : Str) : Option Str :=
  let w := cleanL s
  if dataPref w then none else some (canonCore w)

/-! ### Exclusion filter and the extraction store (`ImageUrlExtractor`) -/

/-- Does `tps-\d+-\d+\.(?:png|svg)` match at the head of `s`
(on an already-lowercased string)? -/
def tpsAt (s : Str) : Bool :=
  if swL "tps-".toList s then
    match (s.drop 4).takeWhile Char.isDigit, (s.drop 4).dropWhile Char.isDigit with
    | _ :: _, x :: r2 =>
      x == '-' &&
        (match r2.takeWhile Char.isDigit, r2.dropWhile Char.isDigit with
         | _ :: _, y :: r4 =>
           y == '.' && (swL "png".toList r4 || swL "svg".toList r4)
         | _, _ => false)
    | _, _ => false
  else false

/-- `tps-\d+-\d+\.(?:png|svg)` matches somewhere (already lowercased). -/
def hasTpsLower : Str → Bool
  | [] => false
  | c :: t => tpsAt (c :: t) || hasTpsLower t

/-- `/tps-\d+-\d+\.(?:png|svg)/i.test(s)`. -/
def hasTps (s : Str) : Bool := hasTpsLower (lowerL s)

/-- The `excludePatterns` list of `extractFromResponse`:
`/imgextra/i, /icon/i, /flag/i, /logo/i,
/_20x20|_40x40|_48x48|_60x60|_80x80/i, /tps-\d+-\d+\.(?:png|svg)/i`. -/
def excludedB (s : Str) : Bool :=
  subCI "imgextra".toList s || subCI "icon".toList s || subCI "flag".toList s ||
  subCI "logo".toList s ||
  subCI "_20x20".toList s || subCI "_40x40".toList s || subCI "_48x48".toList s ||
  subCI "_60x60".toList s || subCI "_80x80".toList s ||
  hasTps s

/-- `ImageUrlExtractor` state: `this.imageUrls` (a `Set`, iterated in
insertion order) and `this.productImages` (a `Map` from product id to a
`Set` of URLs). -/
structure Store where
  all : List Str
  byProd : List (Str × List Str)
deriving DecidableEq

/-- `Set.prototype.add`: append if not already present. -/
def insertUniq (l : List Str) (u : Str) : List Str :=
  if l.contains u then l else l ++ [u]

/-- Add `u` to `this.imageUrls`. -/
def addAll (st : Store) (u : Str) : Store :=
  { st with all := insertUniq st.all u }

/-- Add `u` to `this.productImages.get(productId)`, creating the entry as
`extractFromResponse` does. -/
def addProd (st : Store) (pid : Str) (u : Str) : Store :=
  if st.byProd.any (fun e => e.1 == pid) then
    let upd := fun (e : Str × List Str) =>
      if e.1 == pid then (e.1, insertUniq e.2 u) else e
    { st with byProd := st.byProd.map upd }
  else
    { st with byProd := st.byProd ++ [(pid, [u])] }

/-- The body of the inner `matches.forEach` of `extractFromResponse` for one
raw regex match `m`: cleanup, skip data URIs, skip excluded candidates,
canonicalize, insert into the global set and (when a product id is known)
the product set.  The Bool is the contribution to the `found` flag. -/
def extractOne (st : Store) (pid : Option Str) (m : Str) : Store × Bool :=
  let c := cleanL m
  if dataPref c then (st, false)
  else if excludedB c then (st, false)
  else
    let u := canonCore c
    let st1 := addAll st u
    let st2 := match pid with
      | some p => addProd st1 p u
      | none => st1
    (st2, true)

/-- `extractFromResponse` over its list of raw regex matches (the
concatenation of the match lists of all `imagePatterns`, abstracted as an
input list): folds `extractOne`, accumulating the `found` flag. -/
def extractList (st : Store) (pid : Option Str) (ms : List Str) : Store × Bool :=
  ms.foldl
    (fun acc m =>
      let r := extractOne acc.1 pid m
      (r.1, acc.2 || r.2))
    (st, false)

/-- `url.match(/\.(jpg|jpeg|png|webp|gif)(\?|$)/i)` anchored at the head:
a dot, a recognized extension (case-insensitive), then `?` or end. -/
def imgExtAt (s : Str) : Bool :=
  match s with
  | [] => false
  | c :: r =>
    c == '.' &&
      extAlts.any (fun a =>
        swL a (lowerL r) &&
        ((r.drop a.length).isEmpty || (r.drop a.length).head? == some '?'))

/-- `url.match(/\.(jpg|jpeg|png|webp|gif)(\?|$)/i)` somewhere in `s`. -/
def looksImage : Str → Bool
  | [] => false
  | c :: t => imgExtAt (c :: t) || looksImage t

/-- The `skipPatterns` of the direct-image interception branch of
`setupNetworkInterception`: `/_50x50|_80x80|_100x100/i, /thumbnail/i,
/imgextra/i, /icon/i, /flag/i, /logo/i, /tps-\d+-\d+\.(?:png|svg)/i`. -/
def skipDirectB (s : Str) : Bool :=
  subCI "_50x50".toList s || subCI "_80x80".toList s || subCI "_100x100".toList s ||
  subCI "thumbnail".toList s || subCI "imgextra".toList s || subCI "icon".toList s ||
  subCI "flag".toList s || subCI "logo".toList s || hasTps s

/-- The thumbnail-upgrade logic of the direct-image interception branch
(`let imageUrl = url; if (!url.match(/_960x960|.../i)) { ... }`). -/
def directUpgrade (url : Str) : Str :=
  if subCI "_960x960".toList url || subCI "_800x800".toList url ||
     subCI "_1200x1200".toList url || subCI "_1600x1600".toList url then url
  else if subCI "_50x50".toList url || subCI "_80x80".toList url ||
          subCI "_100x100".toList url then
    replaceLow (baseOf url) ++ quSeg url
  else if !hasSizeM url then
    match extSplit (baseOf url) with
    | some (stem, e) =>
      if hasSizeM (baseOf url) then url
      else stem ++ repl960 ++ '.' :: e ++ quSeg url
    | none => url
  else url

/-- The direct-image interception branch of `setupNetworkInterception`:
for an image-looking response URL that is not skipped and is on the
Alibaba CDN, upgrade it and add it to `this.imageExtractor.imageUrls`. -/
def directIntercept (st : Store) (url : Str) : Store :=
  if looksImage url then
    if !skipDirectB url && hasAli url then addAll st (directUpgrade url)
    else st
  else st

/-! ### Ranking (`scrapeProductPage` fallback filter and sort) -/

/-- `sc\d+\.alicdn\.com` anchored at the head (already lowercased). -/
def scAt (s : Str) : Bool :=
  if swL "sc".toList s then
    let r := s.drop 2
    (match r.takeWhile Char.isDigit, r.dropWhile Char.isDigit with
     | _ :: _, r2 => swL ".alicdn.com".toList r2
     | _, _ => false)
  else false

/-- `/sc\d+\.alicdn\.com/i.test(s)`. -/
def hasScLower : Str → Bool
  | [] => false
  | c :: t => scAt (c :: t) || hasScLower t

/-- `url.match(/sc\d+\.alicdn\.com/i)`. -/
def hasSc (s : Str) : Bool := hasScLower (lowerL s)

/-- Greedy length of the `_\d+x\d+` match at the head of `s` (when
`sizeAt s`): `1 + |digits| + 1 + |digits|`. -/
def sizeLenAt (s : Str) : Nat :=
  match s with
  | [] => 0
  | c :: r =>
    if c == '_' then
      match r.dropWhile Char.isDigit with
      | [] => 0
      | x :: r2 =>
        if x == 'x' then
          2 + (r.takeWhile Char.isDigit).length +
            (r2.takeWhile Char.isDigit).length
        else 0
    else 0

/-- `_\d+x\d+` matches somewhere with no `'\n'` strictly before the match
inside this fragment (regex `.` does not cross newlines). -/
def hasSizeMnoNl : Str → Bool
  | [] => false
  | c :: t => sizeAt (c :: t) || (c != '\n' && hasSizeMnoNl t)

/-- `url.match(/_\d+x\d+.*_\d+x\d+/)`: two size markers separated by
newline-free text.  A second marker can only start after the greedy first
match (markers contain a single `_`, their leading character). -/
def twoSizeB : Str → Bool
  | [] => false
  | c :: t =>
    if sizeAt (c :: t) then hasSizeMnoNl ((c :: t).drop (sizeLenAt (c :: t)))
    else twoSizeB t

/-- The second `skipPatterns` list used by the ranking fallback filter in
`scrapeProductPage` (same vocabulary as `excludePatterns`, without the
data-URI case). -/
def skipRankB (s : Str) : Bool :=
  subCI "imgextra".toList s || subCI "icon".toList s || subCI "flag".toList s ||
  subCI "logo".toList s ||
  subCI "_20x20".toList s || subCI "_40x40".toList s || subCI "_48x48".toList s ||
  subCI "_60x60".toList s || subCI "_80x80".toList s ||
  hasTps s

/-- The qualification filter of the ranking fallback in `scrapeProductPage`:
Alibaba CDN, not a UI element, and high-res / `kf/` product path without a
doubled size marker / `sc` subdomain. -/
def acceptB (url : Str) : Bool :=
  hasAli url &&
  !skipRankB url &&
  ((hasSc url || subCI "_960x960".toList url || subCI "_800x800".toList url ||
    subCI "_1200x1200".toList url || subCI "_1600x1600".toList url) ||
   (subL "alicdn.com/kf/".toList url && !twoSizeB url) ||
   hasSc url)

/-- `parseInt` on a digit string. -/
def natOfDigits (d : Str) : Nat :=
  d.foldl (fun n c => n * 10 + (c.toNat - '0'.toNat)) 0

/-- The first capture of `_(\d+)x\d+` at the head of `s`, if the pattern
matches here. -/
def sizeCapAt (s : Str) : Option Str :=
  match s with
  | [] => none
  | c :: r =>
    if c == '_' then
      match r.takeWhile Char.isDigit, r.dropWhile Char.isDigit with
      | d :: ds, x :: r2 =>
        if x == 'x' && !(r2.takeWhile Char.isDigit).isEmpty then some (d :: ds)
        else none
      | _, _ => none
    else none

/-- `s.match(/_(\d+)x\d+/)?.[1]`: the capture of the leftmost match. -/
def firstSizeCap : Str → Option Str
  | [] => none
  | c :: t =>
    match sizeCapAt (c :: t) with
    | some d => some d
    | none => firstSizeCap t

/-- `parseInt(url.match(/_(\d+)x\d+/)?.[1] || '0')`. -/
def sizeNum (s : Str) : Nat := ((firstSizeCap s).map natOfDigits).getD 0

/-- `url.includes('/kf/')`. -/
def kfB (s : Str) : Bool := subL "/kf/".toList s

/-- `comparator(a, b) <= 0` for the ranking sort comparator
(descending numeric size, then `/kf/` URLs first). -/
def rankLe (a b : Str) : Bool :=
  decide (sizeNum b < sizeNum a ∨
    (sizeNum b = sizeNum a ∧ (kfB b = true → kfB a = true)))

/-- `Array.from(new Set(...))`: first-occurrence-order deduplication. -/
def dedupJs (l : List Str) : List Str :=
  l.foldl (fun acc u => if acc.contains u then acc else acc ++ [u]) []

/-- The order decided by the ranking sort comparator: `rankR a b` holds
when `comparator(a, b) <= 0`, i.e. `a` may come before `b`. -/
def rankR (a b : Str) : Prop := rankLe a b = true

instance : DecidableRel rankR := fun a b => decEq (rankLe a b) true

/-- The ranking fallback of `scrapeProductPage`: filter the accumulated
URLs, deduplicate (`Array.from(new Set(...))`), and sort with the quality
comparator (descending size, `/kf/` first on ties). -/
def rankUrls (l : List Str) : List Str :=
  List.insertionSort rankR (dedupJs (l.filter acceptB))

/-! ### Downloader (`ImageDownloader`) -/

/-- `pathname.match` of `/_\d+x\d+q?\d*\.(jpg|jpeg|png|webp|gif)$/i` anchored
at the head of `s`: returns the captured extension when the whole remaining
text matches.  Greedy digit runs are exact (digits, `x`, `q`, `.` are
pairwise disjoint), so no backtracking arises. -/
def qDropOpt (r3 : Str) : Str :=
  match r3 with
  | [] => r3
  | q :: rq => if q == 'q' || q == 'Q' then rq.dropWhile Char.isDigit else r3

def sizeQExtAt (s : Str) : Option Str :=
  match s with
  | [] => none
  | c :: r =>
    if c == '_' then
      match r.takeWhile Char.isDigit, r.dropWhile Char.isDigit with
      | _ :: _, x :: r2 =>
        if x == 'x' then
          match r2.takeWhile Char.isDigit with
          | [] => none
          | _ :: _ =>
            match qDropOpt (r2.dropWhile Char.isDigit) with
            | [] => none
            | d :: re =>
              if d == '.' && extAlts.contains (lowerL re) then some re else none
        else none
      | _, _ => none
    else none

/-- `pathname.replace(/_\d+x\d+q?\d*\.(jpg|jpeg|png|webp|gif)$/i, '.$1')`:
replace the leftmost (end-anchored) match with a dot and the captured
extension. -/
def stripSizeQ : Str → Str
  | [] => []
  | c :: t =>
    match sizeQExtAt (c :: t) with
    | some e => '.' :: e
    | none => c :: stripSizeQ t

/-- The basename: text after the last `/`. -/
def afterLastSlash (s : Str) : Str :=
  (s.reverse.takeWhile (fun c => c != '/')).reverse

/-- Node's `path.extname`: from the last `.` of the basename, empty when the
basename has no dot or starts with its only dot. -/
def extnameL (p : Str) : Str :=
  match (afterLastSlash p).reverse.dropWhile (fun c => c != '.') with
  | [] => []
  | _ :: pre =>
    if pre.isEmpty then []
    else
      '.' :: ((afterLastSlash p).reverse.takeWhile (fun c => c != '.')).reverse

/-- The extension-derivation step of `downloadImage`:
strip the size-plus-quality suffix, take `path.extname`, default `.jpg`. -/
def deriveExtL (pathname : Str) : Str :=
  let e := extnameL (stripSizeQ pathname)
  if e.isEmpty then ".jpg".toList else e

/-- The per-URL loop of `downloadAll`: skip URLs already in `seenUrls`,
otherwise record the `downloadImage` invocation and collect the success or
the failure.  Returns `(downloaded, failed, invocation trace)`. -/
def dlLoop (dl : Str → Except Str Str) :
    List Str → List Str → List Str × List (Str × Str) × List Str
  | [], _ => ([], [], [])
  | u :: rest, seen =>
    if seen.contains u then dlLoop dl rest seen
    else
      let tl := dlLoop dl rest (seen ++ [u])
      match dl u with
      | .ok p => (p :: tl.1, tl.2.1, u :: tl.2.2)
      | .error e => (tl.1, (u, e) :: tl.2.1, u :: tl.2.2)

/-- `downloadAll`: deduplicate up front (`Array.from(new Set(images))`),
then run the download loop with an empty `seenUrls` set. -/
def downloadAllM (dl : Str → Except Str Str) (images : List Str) :
    List Str × List (Str × Str) × List Str :=
  dlLoop dl (dedupJs images) []

/-! ### Stream-event handlers of `downloadImage` -/

/-- Events of the download promise executor: writer `finish`, writer
`error`, response-stream `error`. -/
inductive DlEv
  | finish
  | werr (e : Str)
  | rerr (e : Str)

/-- State of one in-flight download: how the promise settled (if it did),
the `errorOccurred` flag, and whether the destination file exists. -/
structure DlSt where
  settled : Option (Except Str Str)
  errFlag : Bool
  file : Bool

/-- One event handler of the `downloadImage` promise executor:
`finish` resolves unless an error occurred; either error handler sets the
flag, unlinks the partial file, and rejects. -/
def dlStep (path : Str) (st : DlSt) (ev : DlEv) : DlSt :=
  match ev with
  | .finish =>
    if !st.errFlag && st.settled.isNone then { st with settled := some (.ok path) }
    else st
  | .werr e =>
    { settled := if st.settled.isNone then some (.error e) else st.settled
      errFlag := true
      file := false }
  | .rerr e =>
    { settled := if st.settled.isNone then some (.error e) else st.settled
      errFlag := true
      file := false }

/-- Run the handlers over the stream events in arrival order, starting just
after `response.data.pipe(writer)` created the destination file. -/
def dlRun (path : Str) (evs : List DlEv) : DlSt :=
  evs.foldl (dlStep path) ⟨none, false, true⟩

/-! ### Retry loop (`scrapeProductPage`) -/

/-- Engine of the `scrapeProductPage` retry skeleton, structurally
recursive on `remaining = retryAttempts - retryCount` (the guard
`retryCount < retryAttempts` holds exactly when `remaining > 0`). -/
def scrapeGoF (att : Nat → Except Str Str) (d : Nat) :
    Nat → Nat → Except Str Str × List (Nat × Nat)
  | remaining, rc =>
    match att rc with
    | .ok r => (.ok r, [])
    | .error e =>
      match remaining with
      | rem + 1 =>
        let tl := scrapeGoF att d rem (rc + 1)
        (tl.1, (d, 2 * d) :: tl.2)
      | 0 => (.error e, [])

/-- The whole-attempt retry skeleton of `scrapeProductPage`: `att n` is the
outcome of attempt number `n` (0-based `retryCount`); on an exception with
`retryCount < retryAttempts` the code waits `randomDelay(retryDelay,
retryDelay * 2)` and recurses with `retryCount + 1`.  Returns the final
outcome and the list of delay ranges awaited before each retry, in
order. -/
def scrapeGo (att : Nat → Except Str Str) (cap d : Nat) (rc : Nat) :
    Except Str Str × List (Nat × Nat) :=
  scrapeGoF att d (cap - rc) rc

/-! ### Toolbox: anchored and unanchored search lemmas -/

theorem swL_nil_right {n : Str} (h : swL n [] = true) : n = [] := by
  cases n with
  | nil => rfl
  | cons a as => simp [swL] at h

theorem swL_append_ext {n a : Str} (z : Str) (h : swL n a = true) :
    swL n (a ++ z) = true := by
  induction n generalizing a with
  | nil => simp [swL]
  | cons d ds ih =>
    cases a with
    | nil => simp [swL] at h
    | cons c t =>
      simp [swL] at h ⊢
      exact ⟨h.1, ih h.2⟩

theorem swL_split {n : Str} (a z : Str) (h : swL n (a ++ z) = true) :
    swL n a = true ∨
      (a.length < n.length ∧ swL (n.drop a.length) z = true) := by
  induction a generalizing n with
  | nil =>
    cases n with
    | nil => exact Or.inl rfl
    | cons d ds => exact Or.inr ⟨by simp, h⟩
  | cons c t ih =>
    cases n with
    | nil => exact Or.inl rfl
    | cons d ds =>
      simp [swL] at h
      rcases ih (n := ds) h.2 with h1 | h2
      · exact Or.inl (by simp [swL, h.1, h1])
      · exact Or.inr ⟨by simpa using h2.1, by simpa using h2.2⟩

theorem swL_head {d : Char} {ds : Str} {c : Char} {t : Str}
    (h : swL (d :: ds) (c :: t) = true) : d = c := by
  simp [swL] at h
  exact h.1

theorem subL_nil_left (s : Str) : subL [] s = true := by
  cases s <;> simp [subL, swL]

theorem subL_of_swL {n s : Str} (h : swL n s = true) : subL n s = true := by
  cases s with
  | nil => simp [subL, List.isEmpty_iff, swL_nil_right h]
  | cons c t => simp [subL, h]

theorem subL_cons {n : Str} (c : Char) {t : Str} (h : subL n t = true) :
    subL n (c :: t) = true := by
  simp [subL, h]

theorem subL_append_left {n a : Str} (z : Str) (h : subL n a = true) :
    subL n (a ++ z) = true := by
  induction a with
  | nil =>
    simp [subL, List.isEmpty_iff] at h
    subst h
    exact subL_nil_left z
  | cons c t ih =>
    simp only [subL, Bool.or_eq_true] at h
    rcases h with h | h
    · exact subL_of_swL (by simpa using swL_append_ext z h)
    · exact subL_cons c (ih h)

theorem subL_append_right {n : Str} (a : Str) {z : Str} (h : subL n z = true) :
    subL n (a ++ z) = true := by
  induction a with
  | nil => simpa using h
  | cons c t ih => exact subL_cons c ih

theorem subL_middle {n m : Str} (a z : Str) (h : subL n m = true) :
    subL n (a ++ (m ++ z)) = true :=
  subL_append_right a (subL_append_left z h)

theorem swL_no_last {n a : Str} {c0 : Char} (hc : c0 ∉ n)
    (h : swL n (a ++ [c0]) = true) : swL n a = true := by
  rcases swL_split a [c0] h with h1 | ⟨hlen, h2⟩
  · exact h1
  · exfalso
    cases hd : n.drop a.length with
    | nil =>
      have := congrArg List.length hd
      simp [List.length_drop] at this
      omega
    | cons d ds =>
      rw [hd] at h2
      have hdc : d = c0 := swL_head h2
      have hmem : d ∈ n := List.drop_subset _ _ (hd ▸ List.mem_cons_self d ds)
      exact hc (hdc ▸ hmem)

theorem subL_drop_last {n b : Str} {c0 : Char} (hc : c0 ∉ n) (hn : n ≠ [])
    (h : subL n (b ++ [c0]) = true) : subL n b = true := by
  induction b with
  | nil =>
    exfalso
    cases n with
    | nil => exact hn rfl
    | cons d ds =>
      simp only [List.nil_append, subL, Bool.or_eq_true] at h
      rcases h with h | h
      · have : d = c0 := swL_head h
        exact hc (by simp [this])
      · simp [subL] at h
  | cons c t ih =>
    simp only [List.cons_append, subL, Bool.or_eq_true] at h
    rcases h with h | h
    · have := swL_no_last (a := c :: t) hc (by simpa using h)
      exact subL_of_swL this
    · exact subL_cons c (ih h)

/-! ### Toolbox: takeWhile / dropWhile and cleanup lemmas -/

theorem dw_head {p : Char → Bool} {l : Str} {c : Char} {r : Str}
    (h : l.dropWhile p = c :: r) : p c = false := by
  induction l with
  | nil => simp [List.dropWhile] at h
  | cons a t ih =>
    by_cases hp : p a
    · rw [List.dropWhile_cons_of_pos hp] at h
      exact ih h
    · rw [List.dropWhile_cons_of_neg hp] at h
      cases h
      simpa using hp

theorem tw_all {p : Char → Bool} {l : Str} (h : ∀ c ∈ l, p c = true) :
    l.takeWhile p = l :=
  List.takeWhile_eq_self_iff.mpr h

theorem dw_first {p : Char → Bool} {l : Str} (h : ∀ c ∈ l, p c = false) :
    l.dropWhile p = l := by
  cases l with
  | nil => rfl
  | cons c t => exact List.dropWhile_cons_of_neg (by simp [h c (by simp)])

theorem tw_stop {p : Char → Bool} {a : Str} {q : Char} (z : Str)
    (ha : ∀ c ∈ a, p c = true) (hc : p q = false) :
    (a ++ q :: z).takeWhile p = a ∧ (a ++ q :: z).dropWhile p = q :: z := by
  induction a with
  | nil => simp [List.takeWhile_cons, List.dropWhile_cons, hc]
  | cons c t ih =>
    have hct : p c = true := ha c (by simp)
    have ih2 := ih (fun c hc => ha c (by simp [hc]))
    simp [List.takeWhile_cons, List.dropWhile_cons, hct, ih2.1, ih2.2]

theorem dw_all_append {p : Char → Bool} {a : Str} (z : Str)
    (ha : ∀ c ∈ a, p c = true) :
    (a ++ z).dropWhile p = z.dropWhile p := by
  induction a with
  | nil => rfl
  | cons c t ih =>
    have hct : p c = true := ha c (by simp)
    simp [List.dropWhile_cons, hct, ih (fun c hc => ha c (by simp [hc]))]

theorem jsTrim_sub (s : Str) : (jsTrim s).Sublist s := by
  unfold jsTrim
  have h1 : (s.dropWhile isWsCh).Sublist s := List.dropWhile_sublist _
  have h2 : ((s.dropWhile isWsCh).reverse.dropWhile isWsCh).Sublist
      (s.dropWhile isWsCh).reverse := List.dropWhile_sublist _
  have h3 := h2.reverse
  rw [List.reverse_reverse] at h3
  exact h3.trans h1

theorem cleanL_sub (s : Str) : (cleanL s).Sublist s :=
  (jsTrim_sub _).trans (List.filter_sublist _)

theorem cleanL_mem {s : Str} {c : Char} (h : c ∈ cleanL s) : c ∈ s :=
  (cleanL_sub s).mem h

theorem cleanL_noQuote {s : Str} {c : Char} (h : c ∈ cleanL s) :
    isQuoteCh c = false := by
  have : c ∈ removeQuotes s := (jsTrim_sub _).mem h
  simp [removeQuotes, List.mem_filter] at this
  simpa using this.2

theorem removeQuotes_id {l : Str} (h : ∀ c ∈ l, isQuoteCh c = false) :
    removeQuotes l = l :=
  List.filter_eq_self.mpr (fun c hc => by simp [h c hc])

theorem jsTrim_id {l : Str} (h : ∀ c ∈ l, isWsCh c = false) : jsTrim l = l := by
  unfold jsTrim
  rw [dw_first h, dw_first (fun c hc => h c (List.mem_reverse.mp hc)),
    List.reverse_reverse]

theorem cleanL_id {l : Str} (hq : ∀ c ∈ l, isQuoteCh c = false)
    (hw : ∀ c ∈ l, isWsCh c = false) : cleanL l = l := by
  unfold cleanL
  rw [removeQuotes_id hq, jsTrim_id hw]

/-! ### Toolbox: lemmas about the low-res marker replacement -/

theorem lowAt_none_iff {s : Str} :
    lowAt s = none ↔
      swL "_50x50".toList s = false ∧ swL "_100x100".toList s = false ∧
      swL "_80x80".toList s = false := by
  unfold lowAt
  split_ifs with h1 h2 h3 <;> simp_all

theorem hasLow_eq (s : Str) :
    hasLow s =
      (subL "_50x50".toList s || subL "_100x100".toList s ||
        subL "_80x80".toList s) := by
  simp [hasLow, lowMarkers, Bool.or_assoc]

theorem hasLow_iff {s : Str} :
    hasLow s = true ↔
      subL "_50x50".toList s = true ∨ subL "_100x100".toList s = true ∨
      subL "_80x80".toList s = true := by
  rw [hasLow_eq]
  simp [Bool.or_assoc]

theorem hasLow_cons_elim {c : Char} {t : Str} (h : hasLow (c :: t) = true)
    (hn : lowAt (c :: t) = none) : hasLow t = true := by
  obtain ⟨h1, h2, h3⟩ := lowAt_none_iff.mp hn
  rw [hasLow_iff] at h ⊢
  simp only [subL, Bool.or_eq_true, h1, h2, h3, false_or] at h
  simpa using h

theorem hasLow_cons_false {c : Char} {t : Str} (h : hasLow (c :: t) = false) :
    lowAt (c :: t) = none ∧ hasLow t = false := by
  rw [hasLow_eq] at h
  simp only [subL, Bool.or_eq_false_iff] at h
  obtain ⟨⟨⟨a1, a2⟩, b1, b2⟩, c1, c2⟩ := h
  refine ⟨lowAt_none_iff.mpr ⟨a1, b1, c1⟩, ?_⟩
  rw [hasLow_eq, a2, b2, c2]
  rfl

theorem hasLow_nil : hasLow [] = false := by decide

theorem replaceLowF_id {f : Nat} :
    ∀ {s : Str}, hasLow s = false → s.length ≤ f → replaceLowF f s = s := by
  induction f with
  | zero => intro s _ _; rfl
  | succ f ih =>
    intro s hlow hlen
    cases s with
    | nil => rfl
    | cons c t =>
      obtain ⟨hat, hlt⟩ := hasLow_cons_false hlow
      simp only [replaceLowF, hat]
      rw [ih hlt (by simp at hlen; omega)]

theorem replaceLowF_has960 {f : Nat} :
    ∀ {s : Str}, hasLow s = true → s.length ≤ f →
      subL "_960x960".toList (replaceLowF f s) = true := by
  induction f with
  | zero =>
    intro s hlow hlen
    have : s = [] := List.length_eq_zero.mp (by omega)
    rw [this] at hlow
    exact absurd hlow (by simp [hasLow_nil])
  | succ f ih =>
    intro s hlow hlen
    cases s with
    | nil => exact absurd hlow (by simp [hasLow_nil])
    | cons c t =>
      cases hat : lowAt (c :: t) with
      | some n =>
        simp only [replaceLowF, hat]
        exact subL_append_left _ (subL_of_swL (by decide))
      | none =>
        have ht : hasLow t = true := hasLow_cons_elim hlow hat
        simp only [replaceLowF, hat]
        exact subL_cons c (ih ht (by simp at hlen; omega))

theorem mem_replaceLowF {f : Nat} :
    ∀ {s : Str} {c : Char}, c ∈ replaceLowF f s → c ∈ s ∨ c ∈ repl960 := by
  induction f with
  | zero => intro s c h; exact Or.inl h
  | succ f ih =>
    intro s c h
    cases s with
    | nil => simp [replaceLowF] at h
    | cons c0 t =>
      cases hat : lowAt (c0 :: t) with
      | some n =>
        rw [replaceLowF, hat] at h
        rcases List.mem_append.mp h with h | h
        · exact Or.inr h
        · rcases ih h with h | h
          · exact Or.inl (List.mem_cons_of_mem c0 (List.drop_subset _ _ h))
          · exact Or.inr h
      | none =>
        rw [replaceLowF, hat] at h
        rcases List.mem_cons.mp h with h | h
        · exact Or.inl (by simp [h])
        · rcases ih h with h | h
          · exact Or.inl (List.mem_cons_of_mem c0 h)
          · exact Or.inr h

theorem replaceLowF_sw {f : Nat} :
    ∀ {s n : Str}, (∀ c ∈ n, c ≠ '_') → s.length ≤ f →
      swL n (replaceLowF f s) = true → swL n s = true := by
  induction f with
  | zero => intro s n _ _ h; exact h
  | succ f ih =>
    intro s n hund hlen h
    cases s with
    | nil => simpa [replaceLowF] using h
    | cons c0 t =>
      cases n with
      | nil => simp [swL]
      | cons d ds =>
        cases hat : lowAt (c0 :: t) with
        | some n0 =>
          rw [replaceLowF, hat] at h
          have : d = '_' := swL_head (by simpa [repl960] using h)
          exact absurd this (hund d (by simp))
        | none =>
          rw [replaceLowF, hat] at h
          have hdc : d = c0 := swL_head h
          simp only [swL, Bool.and_eq_true] at h ⊢
          refine ⟨by simp [hdc], ?_⟩
          exact ih (fun c hc => hund c (by simp [hc])) (by simp at hlen; omega) h.2

theorem replaceLow_mem {s : Str} {c : Char} (h : c ∈ replaceLow s) :
    c ∈ s ∨ c ∈ repl960 :=
  mem_replaceLowF h

theorem replaceLow_id {s : Str} (h : hasLow s = false) : replaceLow s = s :=
  replaceLowF_id h le_rfl

theorem replaceLow_has960 {s : Str} (h : hasLow s = true) :
    subL "_960x960".toList (replaceLow s) = true :=
  replaceLowF_has960 h le_rfl

theorem replaceLow_sw {s n : Str} (hund : ∀ c ∈ n, c ≠ '_')
    (h : swL n (replaceLow s) = true) : swL n s = true :=
  replaceLowF_sw hund le_rfl h

/-! ### Toolbox: extension split, query segment and canonicalization shape -/

theorem extSplit_eq {s stem e : Str} (h : extSplit s = some (stem, e)) :
    s = stem ++ '.' :: e ∧ extAlts.contains (lowerL e) = true := by
  unfold extSplit at h
  split at h
  · exact absurd h (by simp)
  · rename_i d stemRev hd
    split_ifs at h with hc
    · have hdot : d = '.' := by
        have := dw_head hd
        simpa using this
      have h1 : stemRev.reverse = stem := (Option.some.inj h ▸ rfl :
        (stemRev.reverse, (s.reverse.takeWhile (fun c => c != '.')).reverse).1 = stem)
      have h2 : (s.reverse.takeWhile (fun c => c != '.')).reverse = e :=
        (Option.some.inj h ▸ rfl :
          (stemRev.reverse, (s.reverse.takeWhile (fun c => c != '.')).reverse).2 = e)
      have hsplit := List.takeWhile_append_dropWhile
        (p := fun c => c != '.') (l := s.reverse)
      rw [hd, hdot] at hsplit
      have hs : s = ((s.reverse.takeWhile (fun c => c != '.')) ++
          '.' :: stemRev).reverse := by
        rw [hsplit, List.reverse_reverse]
      rw [List.reverse_append, List.reverse_cons] at hs
      refine ⟨?_, h2 ▸ hc⟩
      rw [hs, ← h1, ← h2, List.append_assoc]
      rfl

theorem swL_takeWhile {n : Str} {p : Char → Bool} {l : Str}
    (h : swL n (l.takeWhile p) = true) : swL n l = true := by
  have := swL_append_ext (l.dropWhile p) h
  rwa [List.takeWhile_append_dropWhile] at this

theorem quSeg_mem {w : Str} {c : Char} (h : c ∈ quSeg w) :
    c = '?' ∨ c ∈ w := by
  unfold quSeg at h
  split at h
  · simp at h
  · rename_i q0 r hd
    split_ifs at h with hm
    · simp at h
    · rcases List.mem_cons.mp h with h | h
      · exact Or.inl h
      · refine Or.inr ?_
        have h1 : c ∈ r := (List.takeWhile_sublist _).mem h
        have h2 : c ∈ w.dropWhile notQ := by rw [hd]; exact List.mem_cons_of_mem _ h1
        exact (List.dropWhile_sublist _).mem h2

theorem baseOf_mem {w : Str} {c : Char} (h : c ∈ baseOf w) : c ∈ w :=
  (List.takeWhile_sublist _).mem h

theorem canonCore_mem {w : Str} {c : Char} (h : c ∈ canonCore w) :
    c ∈ w ∨ c ∈ repl960 ∨ c = '.' ∨ c = '?' := by
  unfold canonCore at h
  split at h
  · exact Or.inl h
  · split at h
    · rcases List.mem_append.mp h with h | h
      · rcases replaceLow_mem h with h | h
        · exact Or.inl (baseOf_mem h)
        · exact Or.inr (Or.inl h)
      · rcases quSeg_mem h with h | h
        · exact Or.inr (Or.inr (Or.inr h))
        · exact Or.inl h
    · split at h
      · split at h
        · rename_i stem e hx
          obtain ⟨hshape, _⟩ := extSplit_eq hx
          split at h
          · exact Or.inl h
          · rcases List.mem_append.mp h with h | h
            · rcases List.mem_append.mp h with h | h
              · rcases List.mem_append.mp h with h | h
                · exact Or.inl
                    (baseOf_mem (by rw [hshape]; exact List.mem_append_left _ h))
                · exact Or.inr (Or.inl h)
              · rcases List.mem_cons.mp h with h | h
                · exact Or.inr (Or.inr (Or.inl h))
                · refine Or.inl (baseOf_mem ?_)
                  rw [hshape]
                  exact List.mem_append_right _ (List.mem_cons_of_mem _ h)
            · rcases quSeg_mem h with h | h
              · exact Or.inr (Or.inr (Or.inr h))
              · exact Or.inl h
        · exact Or.inl h
      · exact Or.inl h

/-! ### Toolbox: canonicalization branch facts -/

theorem swL_drop_nil {n : Str} {k : Nat} (hk : k < n.length)
    (h : swL (n.drop k) [] = true) : False := by
  have h1 := swL_nil_right h
  have h2 := congrArg List.length h1
  simp [List.length_drop] at h2
  omega

theorem swL_drop_head {n : Str} {k : Nat} {c : Char} {z : Str}
    (hk : k < n.length) (h : swL (n.drop k) (c :: z) = true) : c ∈ n := by
  cases hd : n.drop k with
  | nil =>
    exfalso
    have h2 := congrArg List.length hd
    simp [List.length_drop] at h2
    omega
  | cons d ds =>
    rw [hd] at h
    have : d = c := swL_head h
    exact this ▸ List.drop_subset _ _ (hd ▸ List.mem_cons_self d ds)

theorem quSeg_shape (w : Str) :
    quSeg w = [] ∨ ∃ mid, quSeg w = '?' :: mid := by
  unfold quSeg
  split
  · exact Or.inl rfl
  · split_ifs
    · exact Or.inl rfl
    · exact Or.inr ⟨_, rfl⟩

theorem hasHigh_eq (s : Str) :
    hasHigh s =
      (subL "_960x960".toList s || subL "_800x800".toList s ||
        subL "_1200x1200".toList s || subL "_1600x1600".toList s) := by
  simp [hasHigh, highMarkers, Bool.or_assoc]

theorem hasHigh_of960 {s : Str} (h : subL "_960x960".toList s = true) :
    hasHigh s = true := by
  rw [hasHigh_eq, h]
  simp

theorem canonCore_of_high {w : Str} (h : hasHigh w = true) : canonCore w = w := by
  simp [canonCore, h]

theorem hasLow_drop_last {b : Str} (h : hasLow (b ++ ['?']) = true) :
    hasLow b = true := by
  rw [hasLow_iff] at h ⊢
  rcases h with h | h | h
  · exact Or.inl (subL_drop_last (by decide) (by decide) h)
  · exact Or.inr (Or.inl (subL_drop_last (by decide) (by decide) h))
  · exact Or.inr (Or.inr (subL_drop_last (by decide) (by decide) h))

theorem noPrefSpill {n : Str} {k : Nat} (hk : k < n.length) {qs : Str}
    (hsh : qs = [] ∨ ∃ mid, qs = '?' :: mid) (hq : '?' ∉ n)
    (h : swL (n.drop k) qs = true) : False := by
  rcases hsh with hsh | ⟨mid, hsh⟩
  · exact swL_drop_nil hk (hsh ▸ h)
  · exact hq (swL_drop_head hk (hsh ▸ h))

theorem canonCore_dataPref {w : Str} (hd : dataPref w = false) :
    dataPref (canonCore w) = false := by
  by_contra hcon
  simp only [Bool.not_eq_false] at hcon
  unfold dataPref at hcon hd
  have hqn : '?' ∉ "data:".toList := by decide
  have hun : ∀ c ∈ "data:".toList, c ≠ '_' := by decide
  unfold canonCore at hcon
  split at hcon
  · rw [hcon] at hd; exact absurd hd (by simp)
  · split at hcon
    · -- low-res branch: replaceLow (baseOf w) ++ quSeg w
      rcases swL_split _ _ hcon with hsw | ⟨hlen, hsw⟩
      · have := replaceLow_sw hun hsw
        have := swL_takeWhile this
        rw [this] at hd
        exact absurd hd (by simp)
      · exact noPrefSpill hlen (quSeg_shape w) hqn hsw
    · split at hcon
      · split at hcon
        · rename_i stem e hx
          obtain ⟨hshape, _⟩ := extSplit_eq hx
          split at hcon
          · rw [hcon] at hd; exact absurd hd (by simp)
          · rcases swL_split _ _ hcon with hsw | ⟨hlen, hsw⟩
            · rcases swL_split _ _ hsw with hsw2 | ⟨hlen2, hsw2⟩
              · rcases swL_split _ _ hsw2 with hsw3 | ⟨hlen3, hsw3⟩
                · have h4 : swL "data:".toList (stem ++ '.' :: e) = true :=
                    swL_append_ext _ hsw3
                  rw [← hshape] at h4
                  have := swL_takeWhile h4
                  rw [this] at hd
                  exact absurd hd (by simp)
                · have : '_' ∈ "data:".toList :=
                    swL_drop_head hlen3 (by simpa [repl960] using hsw3)
                  exact absurd this (by decide)
              · have : '.' ∈ "data:".toList := swL_drop_head hlen2 hsw2
                exact absurd this (by decide)
            · exact noPrefSpill hlen (quSeg_shape w) hqn hsw
        · rw [hcon] at hd; exact absurd hd (by simp)
      · rw [hcon] at hd; exact absurd hd (by simp)

theorem canonCore_fix {w : Str} (hq : w.count '?' ≤ 1) :
    canonCore (canonCore w) = canonCore w := by
  by_cases h1 : hasHigh w = true
  · simp [canonCore_of_high h1]
  · by_cases h2 : hasLow w = true
    · have hcw : canonCore w = replaceLow (baseOf w) ++ quSeg w := by
        simp [canonCore, h1, h2]
      by_cases h2b : hasLow (baseOf w) = true
      · have h960 : subL "_960x960".toList (canonCore w) = true := by
          rw [hcw]
          exact subL_append_left _ (replaceLow_has960 h2b)
        exact canonCore_of_high (hasHigh_of960 h960)
      · have hrl : replaceLow (baseOf w) = baseOf w :=
          replaceLow_id (by simpa using h2b)
        have hdecomp := List.takeWhile_append_dropWhile (p := notQ) (l := w)
        cases hdw : w.dropWhile notQ with
        | nil =>
          have hqs : quSeg w = [] := by unfold quSeg; rw [hdw]
          have hcw2 : canonCore w = w := by
            rw [hcw, hrl, hqs, List.append_nil]
            unfold baseOf
            rw [hdw, List.append_nil] at hdecomp
            exact hdecomp
          simp [hcw2]
        | cons q0 r =>
          have hq0 : q0 = '?' := by
            have := dw_head hdw
            simpa [notQ] using this
          have hw_eq : w = w.takeWhile notQ ++ '?' :: r := by
            conv_lhs => rw [← hdecomp]
            rw [hdw, hq0]
          have hcntb : (w.takeWhile notQ).count '?' = 0 :=
            List.count_eq_zero.mpr (fun hmem => by
              have := List.mem_takeWhile_imp hmem
              simp [notQ] at this)
          have hcntr : r.count '?' = 0 := by
            have hceq := congrArg (List.count '?') hw_eq
            rw [List.count_append, List.count_cons, hcntb] at hceq
            simp at hceq
            omega
          have hrq : ∀ c ∈ r, notQ c = true := by
            intro c hc
            have hne : c ≠ '?' := fun he =>
              (List.count_eq_zero.mp hcntr) (he ▸ hc)
            simp [notQ, hne]
          have hmid : r.takeWhile notQ = r := tw_all hrq
          cases hr : r with
          | nil =>
            exfalso
            rw [hr] at hw_eq
            rw [hw_eq] at h2
            exact absurd (hasLow_drop_last h2) (by simpa using h2b)
          | cons rc rt =>
            have hqs : quSeg w = '?' :: r := by
              unfold quSeg
              rw [hdw]
              dsimp only
              rw [hmid, hr]
              simp
            have hcww : canonCore w = w := by
              rw [hcw, hrl, hqs]
              unfold baseOf
              rw [hr] at hw_eq ⊢
              exact hw_eq.symm
            simp [hcww]
    · by_cases h3 : (hasAli w && !hasSizeM w) = true
      · cases hx : extSplit (baseOf w) with
        | none =>
          have hcw : canonCore w = w := by simp [canonCore, h1, h2, h3, hx]
          simp [hcw]
        | some se =>
          obtain ⟨stem, e⟩ := se
          by_cases hsz : hasSizeM (baseOf w) = true
          · have hcw : canonCore w = w := by simp [canonCore, h1, h2, h3, hx, hsz]
            simp [hcw]
          · have hcw : canonCore w =
                stem ++ repl960 ++ '.' :: e ++ quSeg w := by
              simp [canonCore, h1, h2, h3, hx, hsz]
            have h960 : subL "_960x960".toList (canonCore w) = true := by
              rw [hcw]
              exact subL_append_left _ (subL_append_left _
                (subL_append_right _ (by decide)))
            exact canonCore_of_high (hasHigh_of960 h960)
      · have hcw : canonCore w = w := by simp [canonCore, h1, h2, h3]
        simp [hcw]

/-! ### Toolbox: size-marker occurrence lemmas -/

theorem swL_decomp {n s : Str} (h : swL n s = true) :
    s = n ++ s.drop n.length := by
  induction n generalizing s with
  | nil => simp
  | cons d ds ih =>
    cases s with
    | nil => simp [swL] at h
    | cons c t =>
      simp only [swL, Bool.and_eq_true, beq_iff_eq] at h
      obtain ⟨h1, h2⟩ := h
      have := ih h2
      simp only [List.length_cons, List.drop_succ_cons]
      rw [h1]
      exact congrArg (c :: ·) this

theorem tw_cons_of_tw {p : Char → Bool} {r2 : Str} {c : Char} {cs : Str}
    (h : r2.takeWhile p = c :: cs) {z : Str} :
    ¬((r2 ++ z).takeWhile p).isEmpty = true := by
  have hr2 : r2 = (c :: cs) ++ r2.dropWhile p := by
    conv_lhs => rw [← List.takeWhile_append_dropWhile (p := p) (l := r2)]
    rw [h]
  have hc : p c = true := List.mem_takeWhile_imp (h ▸ List.mem_cons_self c cs)
  rw [hr2]
  simp only [List.cons_append, List.takeWhile_cons_of_pos hc]
  simp

theorem sizeAt_append {s : Str} (z : Str) (h : sizeAt s = true) :
    sizeAt (s ++ z) = true := by
  cases s with
  | nil => simp [sizeAt] at h
  | cons c r =>
    unfold sizeAt at h
    simp only [Bool.and_eq_true] at h
    obtain ⟨⟨hc, htkne⟩, hmatch⟩ := h
    split at hmatch
    · exact absurd hmatch (by simp)
    · rename_i x r2 hdw
      simp only [Bool.and_eq_true] at hmatch
      obtain ⟨hx, hr2ne⟩ := hmatch
      cases htw : r.takeWhile Char.isDigit with
      | nil => rw [htw] at htkne; simp at htkne
      | cons d ds =>
        have hr : r = (d :: ds) ++ x :: r2 := by
          conv_lhs =>
            rw [← List.takeWhile_append_dropWhile (p := Char.isDigit) (l := r)]
          rw [htw, hdw]
        have hdig : ∀ e ∈ d :: ds, Char.isDigit e = true := fun e he =>
          List.mem_takeWhile_imp (htw ▸ he)
        have hxd : Char.isDigit x = false := by
          have := dw_head hdw
          exact this
        have hsplit2 := tw_stop (p := Char.isDigit) (a := d :: ds)
          (q := x) (r2 ++ z) hdig hxd
        have hrz : r ++ z = (d :: ds) ++ x :: (r2 ++ z) := by
          rw [hr]; simp
        show sizeAt (c :: (r ++ z)) = true
        unfold sizeAt
        simp only [Bool.and_eq_true]
        refine ⟨⟨hc, ?_⟩, ?_⟩
        · rw [hrz, hsplit2.1]
          simp
        · rw [hrz, hsplit2.2]
          cases hre : r2.takeWhile Char.isDigit with
          | nil => rw [hre] at hr2ne; simp at hr2ne
          | cons e es =>
            have hne := tw_cons_of_tw (z := z) hre
            simp only [Bool.and_eq_true]
            exact ⟨hx, by simpa using hne⟩

theorem dw_all_nil {p : Char → Bool} {l : Str} (h : ∀ c ∈ l, p c = true) :
    l.dropWhile p = [] := by
  have := dw_all_append (a := l) [] h
  simpa using this

theorem hasLow_append_left {a : Str} (z : Str) (h : hasLow a = true) :
    hasLow (a ++ z) = true := by
  rw [hasLow_iff] at h ⊢
  rcases h with h | h | h
  · exact Or.inl (subL_append_left z h)
  · exact Or.inr (Or.inl (subL_append_left z h))
  · exact Or.inr (Or.inr (subL_append_left z h))

theorem hasSizeM_append_left {a : Str} (z : Str) (h : hasSizeM a = true) :
    hasSizeM (a ++ z) = true := by
  induction a with
  | nil => simp [hasSizeM] at h
  | cons c t ih =>
    simp only [hasSizeM, Bool.or_eq_true] at h
    show hasSizeM (c :: (t ++ z)) = true
    simp only [hasSizeM, Bool.or_eq_true]
    rcases h with h | h
    · exact Or.inl (by have := sizeAt_append z h; simpa using this)
    · exact Or.inr (ih h)

theorem hasLow_cons_iff {c : Char} {t : Str} :
    hasLow (c :: t) = true ↔
      ((swL "_50x50".toList (c :: t) = true ∨
        swL "_100x100".toList (c :: t) = true ∨
        swL "_80x80".toList (c :: t) = true) ∨ hasLow t = true) := by
  rw [hasLow_iff, hasLow_iff]
  simp only [subL, Bool.or_eq_true]
  tauto

theorem hasLow_imp_sizeM {s : Str} (h : hasLow s = true) : hasSizeM s = true := by
  induction s with
  | nil => rw [hasLow_nil] at h; exact absurd h (by simp)
  | cons c t ih =>
    rw [hasLow_cons_iff] at h
    simp only [hasSizeM, Bool.or_eq_true]
    rcases h with (h | h | h) | h
    · exact Or.inl (by rw [swL_decomp h]; exact sizeAt_append _ (by decide))
    · exact Or.inl (by rw [swL_decomp h]; exact sizeAt_append _ (by decide))
    · exact Or.inl (by rw [swL_decomp h]; exact sizeAt_append _ (by decide))
    · exact Or.inr (ih h)

/-! ### Claim C1: idempotence of canonicalization -/

/-- Claim C1, counterexample: canonicalization as implemented is *not*
idempotent for every input string.  `split('?')` keeps only the segment
between the first and second `?`, so a low-res marker sitting after a
second `?` is dropped on the first pass, which unlocks the suffix-insertion
branch on the second pass; and a space left trailing by that truncation is
trimmed only on the second pass. -/
theorem c1_counterexample :
    ((canonList "http://x.alicdn.com/a.jpg?b?_50x50".toList).bind canonList ≠
      canonList "http://x.alicdn.com/a.jpg?b?_50x50".toList) ∧
    ((canonList "a_50x50.jpg ?".toList).bind canonList ≠
      canonList "a_50x50.jpg ?".toList) := by
  constructor <;> decide

/-- Claim C1 (amended): the canonicalization step of `extractFromResponse`
is idempotent (`canonicalize (canonicalize x) = canonicalize x` in the
`Option` monad, rejection propagating) for every input string that contains
no whitespace character and at most one `?`. -/
theorem c1_canonicalize_idem (x : Str)
    (hws : ∀ c ∈ x, isWsCh c = false)
    (hqm : x.count '?' ≤ 1) :
    (canonList x).bind canonList = canonList x := by
  have hwws : ∀ c ∈ cleanL x, isWsCh c = false := fun c hc => hws c (cleanL_mem hc)
  have hwq : ∀ c ∈ cleanL x, isQuoteCh c = false := fun _ hc => cleanL_noQuote hc
  have hwcnt : (cleanL x).count '?' ≤ 1 :=
    le_trans ((cleanL_sub x).count_le '?') hqm
  by_cases hd : dataPref (cleanL x) = true
  · simp [canonList, hd]
  · have hrepl : ∀ c ∈ repl960, isWsCh c = false ∧ isQuoteCh c = false := by decide
    have hyw : ∀ c ∈ canonCore (cleanL x), isWsCh c = false := by
      intro c hc
      rcases canonCore_mem hc with h | h | h | h
      · exact hwws c h
      · exact (hrepl c h).1
      · subst h; decide
      · subst h; decide
    have hyq : ∀ c ∈ canonCore (cleanL x), isQuoteCh c = false := by
      intro c hc
      rcases canonCore_mem hc with h | h | h | h
      · exact hwq c h
      · exact (hrepl c h).2
      · subst h; decide
      · subst h; decide
    have hclean : cleanL (canonCore (cleanL x)) = canonCore (cleanL x) :=
      cleanL_id hyq hyw
    have hdy : dataPref (canonCore (cleanL x)) = false :=
      canonCore_dataPref (by simpa using hd)
    simp [canonList, hd, hclean, hdy, canonCore_fix hwcnt]

/-- Claim C1, witness: the amended theorem applied at a concrete low-res
CDN URL with a query string. -/
theorem c1_canonicalize_idem_witness :
    (∀ c ∈ "https://sc04.alicdn.com/kf/a_50x50.jpg?k=v".toList,
      isWsCh c = false) ∧
    "https://sc04.alicdn.com/kf/a_50x50.jpg?k=v".toList.count '?' ≤ 1 ∧
    (canonList "https://sc04.alicdn.com/kf/a_50x50.jpg?k=v".toList).bind
        canonList =
      canonList "https://sc04.alicdn.com/kf/a_50x50.jpg?k=v".toList :=
  ⟨by decide, by decide, c1_canonicalize_idem _ (by decide) (by decide)⟩

/-! ### Claim C2: query-string preservation -/

/-- Claim C2, counterexample: when the query string itself contains a `?`,
the transformed URL keeps only the part of the query before that `?`
(`split('?')` discards everything after the second separator), so the
query component of the result is not the original `q`. -/
theorem c2_counterexample :
    canonList ("http://x.alicdn.com/a_50x50.jpg".toList ++ '?' :: "b?c".toList) =
      some "http://x.alicdn.com/a_960x960q80.jpg?b".toList ∧
    queryOf "http://x.alicdn.com/a_960x960q80.jpg?b".toList ≠ "b?c".toList := by
  constructor <;> decide

/-- Claim C2 (amended): for a URL whose cleaned form is `b ++ "?" ++ q` with
`?`-free base and `?`-free query, whenever the base path is transformed
(a low-res marker is upgraded, or the high-res suffix is inserted), the
canonicalized result's query component equals `q` unmodified. -/
theorem c2_query_preserved (u b q : Str)
    (hw : cleanL u = b ++ '?' :: q)
    (hbq : ∀ c ∈ b, c ≠ '?')
    (hqq : ∀ c ∈ q, c ≠ '?')
    (hd : dataPref (b ++ '?' :: q) = false)
    (hh : hasHigh (b ++ '?' :: q) = false)
    (ht : hasLow b = true ∨
      (hasAli (b ++ '?' :: q) = true ∧ hasSizeM (b ++ '?' :: q) = false ∧
        (extSplit b).isSome = true)) :
    ∃ y, canonList u = some y ∧ queryOf y = q := by
  have hbQ : ∀ c ∈ b, notQ c = true := fun c hc => by simp [notQ, hbq c hc]
  have hqQ : ∀ c ∈ q, notQ c = true := fun c hc => by simp [notQ, hqq c hc]
  have hsplit := tw_stop (p := notQ) (a := b) (q := '?') q hbQ (by simp [notQ])
  have hbase : baseOf (b ++ '?' :: q) = b := hsplit.1
  have hqs : quSeg (b ++ '?' :: q) = if q.isEmpty then [] else '?' :: q := by
    unfold quSeg
    rw [hsplit.2]
    dsimp only
    rw [tw_all hqQ]
  have hcl : canonList u = some (canonCore (b ++ '?' :: q)) := by
    unfold canonList
    rw [hw]
    simp [hd]
  refine ⟨canonCore (b ++ '?' :: q), hcl, ?_⟩
  have hreplQ : ∀ c ∈ repl960, notQ c = true := by decide
  rcases ht with hlowb | ⟨hali, hsz, hsome⟩
  · have hloww : hasLow (b ++ '?' :: q) = true := hasLow_append_left _ hlowb
    have hcc : canonCore (b ++ '?' :: q) =
        replaceLow b ++ quSeg (b ++ '?' :: q) := by
      simp [canonCore, hh, hloww, hbase]
    rw [hcc, hqs]
    have hrlq : ∀ c ∈ replaceLow b, notQ c = true := by
      intro c hc
      rcases replaceLow_mem hc with h | h
      · exact hbQ c h
      · exact hreplQ c h
    cases hq : q with
    | nil =>
      simp only [List.isEmpty_nil, if_true, List.append_nil]
      unfold queryOf
      rw [dw_all_nil hrlq]
      rfl
    | cons qc qt =>
      simp only [List.isEmpty_cons, if_false, Bool.false_eq_true]
      unfold queryOf
      rw [dw_all_append _ hrlq, List.dropWhile_cons_of_neg (by simp [notQ])]
      simp
  · have hloww : hasLow (b ++ '?' :: q) = false := by
      by_contra hx
      simp only [Bool.not_eq_false] at hx
      exact absurd (hasLow_imp_sizeM hx) (by simp [hsz])
    obtain ⟨⟨stem, e⟩, hx⟩ := Option.isSome_iff_exists.mp hsome
    have hszb : hasSizeM b = false := by
      by_contra hxx
      simp only [Bool.not_eq_false] at hxx
      exact absurd (hasSizeM_append_left ('?' :: q) hxx) (by simp [hsz])
    have hcc : canonCore (b ++ '?' :: q) =
        stem ++ repl960 ++ '.' :: e ++ quSeg (b ++ '?' :: q) := by
      simp [canonCore, hh, hloww, hali, hsz, hbase, hx, hszb]
    obtain ⟨hshape, _⟩ := extSplit_eq hx
    have hstem : ∀ c ∈ stem, notQ c = true := fun c hc =>
      hbQ c (by rw [hshape]; exact List.mem_append_left _ hc)
    have he : ∀ c ∈ e, notQ c = true := by
      intro c hc
      refine hbQ c ?_
      rw [hshape]
      exact List.mem_append_right _ (List.mem_cons_of_mem _ hc)
    have hall : ∀ c ∈ (stem ++ repl960) ++ '.' :: e, notQ c = true := by
      intro c hc
      rcases List.mem_append.mp hc with hc | hc
      · rcases List.mem_append.mp hc with hc | hc
        · exact hstem c hc
        · exact hreplQ c hc
      · rcases List.mem_cons.mp hc with hc | hc
        · subst hc; decide
        · exact he c hc
    rw [hcc, hqs]
    cases hq : q with
    | nil =>
      simp only [List.isEmpty_nil, if_true, List.append_nil]
      unfold queryOf
      rw [dw_all_nil hall]
      rfl
    | cons qc qt =>
      simp only [List.isEmpty_cons, if_false, Bool.false_eq_true]
      unfold queryOf
      rw [dw_all_append _ hall, List.dropWhile_cons_of_neg (by simp [notQ])]
      simp

/-- Claim C2, witness: the amended theorem applied at a CDN URL with a
signed query string whose base carries a `_50x50` marker. -/
theorem c2_query_preserved_witness :
    ∃ y, canonList "https://sc04.alicdn.com/kf/a_50x50.jpg?sig=abc".toList =
        some y ∧ queryOf y = "sig=abc".toList :=
  c2_query_preserved _ "https://sc04.alicdn.com/kf/a_50x50.jpg".toList
    "sig=abc".toList (by decide) (by decide) (by decide) (by decide)
    (by decide) (Or.inl (by decide))

/-! ### Claim C4: high-resolution URLs are never re-modified -/

/-- Claim C4: a URL that already contains one of the configured
high-resolution size markers is returned unchanged by canonicalization,
whatever its query string holds (the marker test runs on the whole cleaned
string, query included, and short-circuits every rewriting branch). -/
theorem c4_high_res_unchanged (x : Str) (hclean : cleanL x = x)
    (hh : hasHigh x = true) (hd : dataPref x = false) :
    canonList x = some x := by
  simp [canonList, hclean, hd, canonCore_of_high hh]

/-- Claim C4, witness: an already-high-res URL with a query string that even
contains a second `?` and a low-res marker is returned untouched. -/
theorem c4_high_res_unchanged_witness :
    canonList "https://sc04.alicdn.com/kf/a_1200x1200.jpg?t=x?_50x50".toList =
      some "https://sc04.alicdn.com/kf/a_1200x1200.jpg?t=x?_50x50".toList :=
  c4_high_res_unchanged _ (by decide) (by decide) (by decide)

/-! ### Claims C3 and C9: exclusion filter and the `found` flag -/

theorem contains_false_iff {l : List Str} {u : Str} :
    l.contains u = false ↔ u ∉ l := by
  rw [← Bool.not_eq_true]
  exact not_congr ⟨fun h => List.mem_of_elem_eq_true h,
    fun h => List.elem_eq_true_of_mem h⟩

theorem dedupFold_mem (l : List Str) :
    ∀ (acc : List Str) (u : Str),
      (u ∈ l.foldl
        (fun acc u => if acc.contains u then acc else acc ++ [u]) acc) ↔
      u ∈ acc ∨ u ∈ l := by
  induction l with
  | nil => intro acc u; simp
  | cons v rest ih =>
    intro acc u
    simp only [List.foldl_cons]
    by_cases hc : acc.contains v = true
    · rw [if_pos hc, ih]
      have hv : v ∈ acc := List.mem_of_elem_eq_true hc
      simp only [List.mem_cons]
      constructor
      · rintro (h | h)
        · exact Or.inl h
        · exact Or.inr (Or.inr h)
      · rintro (h | h | h)
        · exact Or.inl h
        · exact Or.inl (h ▸ hv)
        · exact Or.inr h
    · rw [if_neg hc, ih]
      simp only [List.mem_append, List.mem_cons, List.mem_singleton]
      tauto

theorem dedupJs_mem {l : List Str} {u : Str} : u ∈ dedupJs l ↔ u ∈ l := by
  unfold dedupJs
  rw [dedupFold_mem]
  simp

theorem extractOne_snd (st : Store) (pid : Option Str) (m : Str) :
    (extractOne st pid m).2 =
      (!dataPref (cleanL m) && !excludedB (cleanL m)) := by
  simp only [extractOne]
  split_ifs with h1 h2 <;> simp_all

theorem extractList_snd_aux (pid : Option Str) (ms : List Str) :
    ∀ (st : Store) (b : Bool),
      (ms.foldl
        (fun acc m =>
          let r := extractOne acc.1 pid m
          (r.1, acc.2 || r.2))
        (st, b)).2 =
      (b || ms.any (fun m => !dataPref (cleanL m) && !excludedB (cleanL m))) := by
  induction ms with
  | nil => intro st b; simp
  | cons m rest ih =>
    intro st b
    simp only [List.foldl_cons, List.any_cons]
    rw [ih]
    rw [extractOne_snd]
    cases b <;> simp [Bool.or_assoc]

/-- Claim C3, counterexample: the invariant does not cover the direct
image-response interception path.  Its `skipPatterns` list lacks the
`_20x20/_40x40/_48x48/_60x60` small-UI markers, so a URL matching the
exclusion vocabulary (`_40x40`) is stored in the global set. -/
theorem c3_counterexample :
    excludedB "https://sc04.alicdn.com/kf/a_40x40.jpg".toList = true ∧
    (directIntercept ⟨[], []⟩
        "https://sc04.alicdn.com/kf/a_40x40.jpg".toList).all =
      ["https://sc04.alicdn.com/kf/a_40x40.jpg".toList] := by
  constructor <;> decide

/-- Claim C3 (amended): on the payload-extraction path
(`extractFromResponse`), a candidate whose cleaned form matches any
exclusion pattern is dropped before canonicalization: processing it leaves
the store (both the target-keyed map and the global set) unchanged and
contributes nothing to the `found` flag; and such a candidate never appears
in any ranked URL list, since the ranking fallback's skip list repeats the
exclusion vocabulary and filters it out before sorting.  The direct
interception path, however, applies its own smaller skip list, so
small-marker URLs such as `_40x40` can still enter the global set (see the
counterexample). -/
theorem c3_excluded_dropped (st : Store) (pid : Option Str) (m : Str)
    (l : List Str) (h : excludedB (cleanL m) = true) :
    extractOne st pid m = (st, false) ∧ cleanL m ∉ rankUrls l := by
  constructor
  · simp only [extractOne]
    split_ifs with h1 <;> simp_all
  · intro hmem
    have hperm : rankUrls l = List.insertionSort rankR
        (dedupJs (l.filter acceptB)) := rfl
    rw [hperm] at hmem
    have hd : cleanL m ∈ dedupJs (l.filter acceptB) :=
      (List.Perm.mem_iff (List.perm_insertionSort rankR _)).mp hmem
    have hf : cleanL m ∈ l.filter acceptB := dedupJs_mem.mp hd
    have hacc : acceptB (cleanL m) = true := (List.mem_filter.mp hf).2
    have hskip : skipRankB (cleanL m) = true := h
    simp [acceptB, hskip] at hacc

/-- Claim C3, witness: a UI-icon candidate leaves a nonempty store
untouched and is absent from the ranked list even when the accumulated URL
pool contains it. -/
theorem c3_excluded_dropped_witness :
    excludedB (cleanL "https://sc04.alicdn.com/kf/icon_menu.jpg".toList) =
      true ∧
    (extractOne ⟨["https://sc04.alicdn.com/kf/a_960x960q80.jpg".toList], []⟩
        (some "123".toList) "https://sc04.alicdn.com/kf/icon_menu.jpg".toList =
      (⟨["https://sc04.alicdn.com/kf/a_960x960q80.jpg".toList], []⟩, false) ∧
    cleanL "https://sc04.alicdn.com/kf/icon_menu.jpg".toList ∉
      rankUrls ["https://sc04.alicdn.com/kf/a_960x960q80.jpg".toList,
        "https://sc04.alicdn.com/kf/icon_menu.jpg".toList]) :=
  ⟨by decide, c3_excluded_dropped _ _ _ _ (by decide)⟩

/-- Claim C9, counterexample: `extractFromResponse` sets `found = true` for
every surviving candidate whether or not it was newly captured.  A call
whose only candidate is already in the store leaves the store unchanged and
still returns `true`, where the claim demands `false`. -/
theorem c9_counterexample :
    (extractList ⟨["https://sc04.alicdn.com/kf/a_960x960q80.jpg".toList], []⟩
        none ["https://sc04.alicdn.com/kf/a_960x960q80.jpg".toList]).1 =
      ⟨["https://sc04.alicdn.com/kf/a_960x960q80.jpg".toList], []⟩ ∧
    (extractList ⟨["https://sc04.alicdn.com/kf/a_960x960q80.jpg".toList], []⟩
        none ["https://sc04.alicdn.com/kf/a_960x960q80.jpg".toList]).2 =
      true := by
  constructor <;> decide

/-- Claim C9 (amended): `extractFromResponse` returns `true` iff at least
one raw match survives the data-URI and exclusion filters — independently
of whether its canonical form was already present in the store.  The call
itself returns no URLs (its result is the Bool; callers query the store). -/
theorem c9_found_iff (st : Store) (pid : Option Str) (ms : List Str) :
    (extractList st pid ms).2 =
      ms.any (fun m => !dataPref (cleanL m) && !excludedB (cleanL m)) := by
  unfold extractList
  rw [extractList_snd_aux]
  simp

/-! ### Claim C5: whole-attempt retry with backoff -/

theorem scrapeGo_exhaust (att : Nat → Except Str Str) (cap d : Nat)
    (es : Nat → Str) (h : ∀ i, i ≤ cap → att i = .error (es i)) :
    ∀ (k rc : Nat), rc + k = cap →
      scrapeGoF att d k rc =
        (.error (es cap), List.replicate k (d, 2 * d)) := by
  intro k
  induction k with
  | zero =>
    intro rc hrc
    have hrceq : rc = cap := by omega
    subst hrceq
    rw [scrapeGoF, h rc le_rfl]
    rfl
  | succ k ih =>
    intro rc hrc
    rw [scrapeGoF, h rc (by omega)]
    dsimp only
    rw [ih (rc + 1) (by omega)]
    simp [List.replicate_succ]

/-- Claim C5, counterexample: the backoff delay is *not* linearly scaled by
the attempt number.  Every retry waits `randomDelay(retryDelay,
retryDelay * 2)` with the same constant bounds: with `retryDelay = 5000`,
the delay range before attempt 3 equals the one before attempt 2. -/
theorem c5_counterexample :
    (scrapeGo (fun n => if n < 2 then .error "e".toList else .ok "r".toList)
        3 5000 0).2 = [(5000, 10000), (5000, 10000)] ∧
    (scrapeGo (fun n => if n < 2 then .error "e".toList else .ok "r".toList)
        3 5000 0).2[0]? =
      (scrapeGo (fun n => if n < 2 then .error "e".toList else .ok "r".toList)
        3 5000 0).2[1]? := by
  constructor <;> decide

/-- Claim C5 (amended): on an exception `scrapeProductPage` retries up to
the configured attempt cap with a randomized backoff drawn from the fixed
range `[retryDelay, 2 * retryDelay]` before every retry (not scaled by the
attempt number), and exhausting the cap propagates the last error.  In
particular, under a 3-attempt cap, failing twice and succeeding on the
third attempt returns that success with a backoff wait before attempts 2
and 3 and none before attempt 1. -/
theorem c5_retry :
    (∀ (att : Nat → Except Str Str) (d : Nat) (r e0 e1 : Str),
      att 0 = .error e0 → att 1 = .error e1 → att 2 = .ok r →
      scrapeGo att 3 d 0 = (.ok r, [(d, 2 * d), (d, 2 * d)])) ∧
    (∀ (att : Nat → Except Str Str) (cap d : Nat) (es : Nat → Str),
      (∀ i, i ≤ cap → att i = .error (es i)) →
      scrapeGo att cap d 0 =
        (.error (es cap), List.replicate cap (d, 2 * d))) := by
  constructor
  · intro att d r e0 e1 h0 h1 h2
    unfold scrapeGo
    rw [show (3 : Nat) - 0 = 3 from rfl]
    rw [scrapeGoF, h0]
    dsimp only
    rw [scrapeGoF, h1]
    dsimp only
    rw [scrapeGoF, h2]
  · intro att cap d es h
    unfold scrapeGo
    rw [show cap - 0 = cap from rfl]
    exact scrapeGo_exhaust att cap d es h cap 0 (by omega)

/-- Claim C5, witness: both parts applied at concrete attempt functions. -/
theorem c5_retry_witness :
    scrapeGo (fun n => if n < 2 then .error "e".toList else .ok "r".toList)
        3 5000 0 = (.ok "r".toList, [(5000, 2 * 5000), (5000, 2 * 5000)]) ∧
    scrapeGo (fun _ => .error "x".toList) 3 7 0 =
      (.error "x".toList, List.replicate 3 (7, 2 * 7)) :=
  ⟨c5_retry.1 (fun n => if n < 2 then .error "e".toList else .ok "r".toList)
      5000 "r".toList "e".toList "e".toList rfl rfl rfl,
   c5_retry.2 (fun _ => .error "x".toList) 3 7 (fun _ => "x".toList)
     (fun _ _ => rfl)⟩

/-! ### Claim C6: ranking order -/

theorem rankR_iff {a b : Str} :
    rankR a b ↔
      (sizeNum b < sizeNum a ∨
        (sizeNum b = sizeNum a ∧ (kfB b = true → kfB a = true))) := by
  simp only [rankR, rankLe, decide_eq_true_eq]

instance : IsTrans Str rankR where
  trans := by
    intro a b c hab hbc
    rw [rankR_iff] at *
    rcases hab with h1 | ⟨h1, h1k⟩ <;> rcases hbc with h2 | ⟨h2, h2k⟩
    · exact Or.inl (by omega)
    · exact Or.inl (by omega)
    · exact Or.inl (by omega)
    · exact Or.inr ⟨by omega, fun hc => h1k (h2k hc)⟩

instance : IsTotal Str rankR where
  total := by
    intro a b
    rw [rankR_iff, rankR_iff]
    rcases Nat.lt_trichotomy (sizeNum a) (sizeNum b) with h | h | h
    · exact Or.inr (Or.inl h)
    · by_cases hk : kfB b = true → kfB a = true
      · exact Or.inl (Or.inr ⟨h.symm, hk⟩)
      · refine Or.inr (Or.inr ⟨h, fun ha => ?_⟩)
        by_cases hb : kfB b = true
        · exact absurd (fun _ => ha) hk
        · exact absurd (fun hbb => absurd hbb hb) hk
    · exact Or.inl (Or.inl h)

/-- Claim C6: the ranking step's output is ordered by descending numeric
size value (0 when no `_\d+x\d+` marker is present), and at equal size
value a `/kf/` product-path URL never appears after a non-`/kf/` one: for
any two positions `i < j` of the ranked list, either the size at `j` is
strictly smaller, or the sizes are equal and `/kf/`-membership at `j`
implies it at `i`. -/
theorem c6_rank_order (l : List Str) (i j : Nat) (hij : i < j)
    (hj : j < (rankUrls l).length) :
    sizeNum ((rankUrls l).get ⟨j, hj⟩) <
      sizeNum ((rankUrls l).get ⟨i, Nat.lt_trans hij hj⟩) ∨
    (sizeNum ((rankUrls l).get ⟨j, hj⟩) =
        sizeNum ((rankUrls l).get ⟨i, Nat.lt_trans hij hj⟩) ∧
      (kfB ((rankUrls l).get ⟨j, hj⟩) = true →
        kfB ((rankUrls l).get ⟨i, Nat.lt_trans hij hj⟩) = true)) := by
  have hp : List.Pairwise rankR (rankUrls l) :=
    List.sorted_insertionSort rankR (dedupJs (l.filter acceptB))
  have h := List.pairwise_iff_get.mp hp ⟨i, Nat.lt_trans hij hj⟩ ⟨j, hj⟩ hij
  rwa [rankR_iff] at h

/-- Claim C6, witness: two equal-size CDN URLs, one under `/kf/`; the
theorem instantiated at the first two positions of the ranked output. -/
theorem c6_rank_order_witness :
    sizeNum ((rankUrls ["https://sc04.alicdn.com/x_800x800.jpg".toList,
        "https://sc04.alicdn.com/kf/y_800x800.jpg".toList]).get
        ⟨1, by decide⟩) <
      sizeNum ((rankUrls ["https://sc04.alicdn.com/x_800x800.jpg".toList,
        "https://sc04.alicdn.com/kf/y_800x800.jpg".toList]).get
        ⟨0, by decide⟩) ∨
    (sizeNum ((rankUrls ["https://sc04.alicdn.com/x_800x800.jpg".toList,
        "https://sc04.alicdn.com/kf/y_800x800.jpg".toList]).get
        ⟨1, by decide⟩) =
        sizeNum ((rankUrls ["https://sc04.alicdn.com/x_800x800.jpg".toList,
          "https://sc04.alicdn.com/kf/y_800x800.jpg".toList]).get
          ⟨0, by decide⟩) ∧
      (kfB ((rankUrls ["https://sc04.alicdn.com/x_800x800.jpg".toList,
          "https://sc04.alicdn.com/kf/y_800x800.jpg".toList]).get
          ⟨1, by decide⟩) = true →
        kfB ((rankUrls ["https://sc04.alicdn.com/x_800x800.jpg".toList,
          "https://sc04.alicdn.com/kf/y_800x800.jpg".toList]).get
          ⟨0, by decide⟩) = true)) :=
  c6_rank_order _ 0 1 (by decide) (by decide)

/-! ### Claim C7: batch download deduplication -/

theorem dedupFold_nodup (l : List Str) :
    ∀ acc : List Str, acc.Nodup →
      (l.foldl
        (fun acc u => if acc.contains u then acc else acc ++ [u]) acc).Nodup := by
  induction l with
  | nil => intro acc h; exact h
  | cons v rest ih =>
    intro acc h
    simp only [List.foldl_cons]
    by_cases hc : acc.contains v = true
    · rw [if_pos hc]; exact ih acc h
    · rw [if_neg hc]
      refine ih (acc ++ [v]) ?_
      rw [List.nodup_append]
      refine ⟨h, by simp, ?_⟩
      intro a ha hav
      rw [List.mem_singleton] at hav
      subst hav
      exact (contains_false_iff.mp (by simpa using hc)) ha

theorem dedupJs_nodup (l : List Str) : (dedupJs l).Nodup :=
  dedupFold_nodup l [] List.nodup_nil

theorem dlLoop_trace (dl : Str → Except Str Str) :
    ∀ (l seen : List Str), l.Nodup →
      (∀ u ∈ l, seen.contains u = false) →
      (dlLoop dl l seen).2.2 = l := by
  intro l
  induction l with
  | nil => intro seen _ _; rfl
  | cons u rest ih =>
    intro seen hnd hs
    have hrest : (dlLoop dl rest (seen ++ [u])).2.2 = rest := by
      refine ih (seen ++ [u]) (List.nodup_cons.mp hnd).2 ?_
      intro v hv
      refine contains_false_iff.mpr ?_
      intro hm
      rcases List.mem_append.mp hm with hm | hm
      · exact absurd hm
          (contains_false_iff.mp (hs v (List.mem_cons_of_mem _ hv)))
      · rw [List.mem_singleton] at hm
        exact (List.nodup_cons.mp hnd).1 (hm ▸ hv)
    simp only [dlLoop, hs u (List.mem_cons_self u rest), Bool.false_eq_true,
      if_false]
    cases hdl : dl u <;> simp [hdl, hrest]

theorem count_one_of_nodup {l : List Str} {u : Str} (hn : l.Nodup)
    (hm : u ∈ l) : l.count u = 1 := by
  induction l with
  | nil => simp at hm
  | cons v t ih =>
    rw [List.count_cons]
    rcases List.mem_cons.mp hm with he | hm2
    · subst he
      rw [List.count_eq_zero.mpr (List.nodup_cons.mp hn).1]
      simp
    · have hne : v ≠ u := fun he => (List.nodup_cons.mp hn).1 (he ▸ hm2)
      rw [ih (List.nodup_cons.mp hn).2 hm2]
      simp [hne]

/-- Claim C7: `downloadAll` deduplicates its input up front, so the
sequence of `downloadImage` invocations is exactly the first-occurrence
deduplication of the input; in particular every URL of the input is
attempted exactly once (`[u, u, u]` causes a single fetch of `u`), and the
duplicate count influences nothing but logging. -/
theorem c7_download_dedup (dl : Str → Except Str Str) (images : List Str) :
    (downloadAllM dl images).2.2 = dedupJs images ∧
    ∀ u, (downloadAllM dl images).2.2.count u =
      if u ∈ images then 1 else 0 := by
  have htrace : (downloadAllM dl images).2.2 = dedupJs images := by
    unfold downloadAllM
    exact dlLoop_trace dl (dedupJs images) [] (dedupJs_nodup images)
      (fun u _ => rfl)
  refine ⟨htrace, fun u => ?_⟩
  rw [htrace]
  by_cases hu : u ∈ images
  · rw [if_pos hu]
    exact count_one_of_nodup (dedupJs_nodup images) (dedupJs_mem.mpr hu)
  · rw [if_neg hu]
    exact List.count_eq_zero.mpr (fun hm => hu (dedupJs_mem.mp hm))

/-! ### Claim C10: no partial file left on a stream error -/

theorem dlStep_inv (path : Str) (st : DlSt) (ev : DlEv)
    (h : (st.errFlag = true → st.file = false) ∧
      (∀ e, st.settled = some (.error e) → st.errFlag = true)) :
    ((dlStep path st ev).errFlag = true → (dlStep path st ev).file = false) ∧
      (∀ e, (dlStep path st ev).settled = some (.error e) →
        (dlStep path st ev).errFlag = true) := by
  cases ev with
  | finish =>
    simp only [dlStep]
    split_ifs with hc
    · exact ⟨h.1, fun e he => by simp at he⟩
    · exact h
  | werr e =>
    simp only [dlStep]
    exact ⟨fun _ => trivial, fun _ _ => trivial⟩
  | rerr e =>
    simp only [dlStep]
    exact ⟨fun _ => trivial, fun _ _ => trivial⟩

/-- Claim C10: in the stream-event model of the `downloadImage` promise
executor, whenever the settled outcome is an error (a writer or
response-stream error fired), the destination file has been unlinked: the
error handlers delete the partial file before rejecting, the `finish`
handler never resolves after an error, and nothing recreates the file. -/
theorem c10_file_removed_on_error (path : Str) (evs : List DlEv) (e : Str)
    (h : (dlRun path evs).settled = some (.error e)) :
    (dlRun path evs).file = false := by
  have hfold : ∀ (l : List DlEv) (st : DlSt),
      ((st.errFlag = true → st.file = false) ∧
        (∀ e, st.settled = some (.error e) → st.errFlag = true)) →
      ((l.foldl (dlStep path) st).errFlag = true →
        (l.foldl (dlStep path) st).file = false) ∧
      (∀ e, (l.foldl (dlStep path) st).settled = some (.error e) →
        (l.foldl (dlStep path) st).errFlag = true) := by
    intro l
    induction l with
    | nil => intro st h; exact h
    | cons ev rest ih => intro st h; exact ih _ (dlStep_inv path st ev h)
  have hI := hfold evs ⟨none, false, true⟩ ⟨by simp, by simp⟩
  exact hI.1 (hI.2 e h)

/-- Claim C10, witness: a writer error leads to an error outcome with the
file removed. -/
theorem c10_file_removed_on_error_witness :
    (dlRun "f.jpg".toList [DlEv.werr "boom".toList]).settled =
      some (.error "boom".toList) ∧
    (dlRun "f.jpg".toList [DlEv.werr "boom".toList]).file = false :=
  ⟨rfl, c10_file_removed_on_error _ _ _ rfl⟩

/-! ### Claim C8: extension derivation -/

theorem extAlts_chars {e : Str} (h : extAlts.contains (lowerL e) = true) :
    ∀ c ∈ e, c ≠ '_' ∧ c ≠ '.' ∧ c ≠ '/' := by
  intro c hc
  have hmem : lowerL e ∈ extAlts := List.mem_of_elem_eq_true h
  have hmap : Char.toLower c ∈ lowerL e := List.mem_map_of_mem _ hc
  simp only [extAlts, List.mem_cons, List.not_mem_nil, or_false] at hmem
  refine ⟨?_, ?_, ?_⟩ <;> intro hce <;> subst hce <;>
    rcases hmem with h1 | h1 | h1 | h1 | h1 <;> rw [h1] at hmap <;>
    revert hmap <;> decide

theorem tw_append_all {p : Char → Bool} {a : Str} (z : Str)
    (ha : ∀ c ∈ a, p c = true) :
    (a ++ z).takeWhile p = a ++ z.takeWhile p := by
  induction a with
  | nil => rfl
  | cons c t ih =>
    have hct : p c = true := ha c (by simp)
    simp [List.takeWhile_cons, hct, ih (fun c hc => ha c (by simp [hc]))]

theorem sizeQExtAt_shape {n m k e : Str}
    (hn : n ≠ []) (hnd : ∀ c ∈ n, Char.isDigit c = true)
    (hm : m ≠ []) (hmd : ∀ c ∈ m, Char.isDigit c = true)
    (hkd : ∀ c ∈ k, Char.isDigit c = true)
    (he : extAlts.contains (lowerL e) = true) :
    sizeQExtAt ('_' :: (n ++ 'x' :: (m ++ 'q' :: (k ++ '.' :: e)))) =
      some e := by
  have h1 := tw_stop (p := Char.isDigit) (a := n) (q := 'x')
    (m ++ 'q' :: (k ++ '.' :: e)) hnd (by decide)
  have h2 := tw_stop (p := Char.isDigit) (a := m) (q := 'q')
    (k ++ '.' :: e) hmd (by decide)
  have h3 := tw_stop (p := Char.isDigit) (a := k) (q := '.') e hkd (by decide)
  unfold sizeQExtAt
  simp only [show ('_' == '_') = true from rfl, if_true]
  rw [h1.1, h1.2]
  cases n with
  | nil => exact absurd rfl hn
  | cons d ds =>
    dsimp only
    simp only [show ('x' == 'x') = true from rfl, if_true]
    rw [h2.1, h2.2]
    cases m with
    | nil => exact absurd rfl hm
    | cons d2 ds2 =>
      dsimp only
      simp only [qDropOpt, show ('q' == 'q') = true from rfl, Bool.true_or,
        if_true]
      rw [h3.2]
      dsimp only
      have hcond : ('.' == '.' && extAlts.contains (lowerL e)) = true := by
        rw [he]
        decide
      rw [if_pos hcond]

theorem sizeQExtAt_no_underscore {c : Char} {t : Str} {e' : Str}
    (h : sizeQExtAt (c :: t) = some e') : '_' ∉ t := by
  simp only [sizeQExtAt] at h
  split_ifs at h with hc
  · split at h
    · rename_i d ds x r2 htw hdw
      split_ifs at h with hx
      · split at h
        · exact absurd h (by simp)
        · rename_i d2 ds2 htw2
          split at h
          · exact absurd h (by simp)
          · rename_i dd re hqd
            split_ifs at h with hdot
            · obtain ⟨hdot1, hcont⟩ := Bool.and_eq_true_iff.mp hdot
              have hdotc : dd = '.' := by simpa using hdot1
              have hxc : x = 'x' := by simpa using hx
              have hechars := extAlts_chars hcont
              intro hmem
              have hdecomp : t = t.takeWhile Char.isDigit ++ (x :: r2) := by
                conv_lhs =>
                  rw [← List.takeWhile_append_dropWhile
                    (p := Char.isDigit) (l := t)]
                rw [hdw]
              rw [hdecomp] at hmem
              rcases List.mem_append.mp hmem with hmem | hmem
              · have := List.mem_takeWhile_imp hmem
                simp at this
              · rcases List.mem_cons.mp hmem with hmem | hmem
                · rw [hxc] at hmem; exact absurd hmem (by decide)
                · have hdecomp2 : r2 =
                      r2.takeWhile Char.isDigit ++ r2.dropWhile Char.isDigit :=
                    (List.takeWhile_append_dropWhile _ _).symm
                  rw [hdecomp2] at hmem
                  rcases List.mem_append.mp hmem with hmem | hmem
                  · have := List.mem_takeWhile_imp hmem
                    simp at this
                  · cases hdw2 : r2.dropWhile Char.isDigit with
                    | nil => rw [hdw2] at hmem; simp at hmem
                    | cons q0 rq =>
                      rw [hdw2] at hmem hqd
                      simp only [qDropOpt] at hqd
                      split_ifs at hqd with hq
                      · rcases List.mem_cons.mp hmem with hmem | hmem
                        · rcases Bool.or_eq_true_iff.mp hq with hq1 | hq1
                          · have hq0 : q0 = 'q' := by simpa using hq1
                            rw [hq0] at hmem
                            exact absurd hmem (by decide)
                          · have hq0 : q0 = 'Q' := by simpa using hq1
                            rw [hq0] at hmem
                            exact absurd hmem (by decide)
                        · have hrqd : rq =
                              rq.takeWhile Char.isDigit ++ (dd :: re) := by
                            conv_lhs =>
                              rw [← List.takeWhile_append_dropWhile
                                (p := Char.isDigit) (l := rq)]
                            rw [hqd]
                          rw [hrqd] at hmem
                          rcases List.mem_append.mp hmem with hmem | hmem
                          · have := List.mem_takeWhile_imp hmem
                            simp at this
                          · rcases List.mem_cons.mp hmem with hmem | hmem
                            · rw [hdotc] at hmem
                              exact absurd hmem (by decide)
                            · exact (hechars '_' hmem).1 rfl
                      · cases hqd
                        rcases List.mem_cons.mp hmem with hmem | hmem
                        · rw [hdotc] at hmem
                          exact absurd hmem (by decide)
                        · exact (hechars '_' hmem).1 rfl
    · exact absurd h (by simp)

theorem stripSizeQ_shape (stem : Str) {n m k e : Str}
    (hn : n ≠ []) (hnd : ∀ c ∈ n, Char.isDigit c = true)
    (hm : m ≠ []) (hmd : ∀ c ∈ m, Char.isDigit c = true)
    (hkd : ∀ c ∈ k, Char.isDigit c = true)
    (he : extAlts.contains (lowerL e) = true) :
    stripSizeQ (stem ++ '_' :: (n ++ 'x' :: (m ++ 'q' :: (k ++ '.' :: e)))) =
      stem ++ '.' :: e := by
  induction stem with
  | nil =>
    rw [List.nil_append, stripSizeQ,
      sizeQExtAt_shape hn hnd hm hmd hkd he]
    rfl
  | cons c st' ih =>
    rw [List.cons_append, stripSizeQ]
    cases hqe : sizeQExtAt
        (c :: (st' ++ '_' :: (n ++ 'x' :: (m ++ 'q' :: (k ++ '.' :: e))))) with
    | some e2 =>
      exfalso
      refine sizeQExtAt_no_underscore hqe ?_
      exact List.mem_append_right _ (List.mem_cons_self _ _)
    | none =>
      dsimp only
      rw [ih]
      rfl

theorem extname_append_ext {stem e : Str} (hstem : stem ≠ [])
    (hsl : stem.getLast? ≠ some '/')
    (he : extAlts.contains (lowerL e) = true) :
    extnameL (stem ++ '.' :: e) = '.' :: e := by
  have hech := extAlts_chars he
  have heNoSl : ∀ c ∈ e.reverse, (c != '/') = true := by
    intro c hc
    simp [(hech c (List.mem_reverse.mp hc)).2.2]
  have heNoDot : ∀ c ∈ e.reverse, (c != '.') = true := by
    intro c hc
    simp [(hech c (List.mem_reverse.mp hc)).2.1]
  have hrev : (stem ++ '.' :: e).reverse =
      e.reverse ++ '.' :: stem.reverse := by
    rw [List.reverse_append, List.reverse_cons, List.append_assoc]
    rfl
  have hbase : afterLastSlash (stem ++ '.' :: e) =
      (stem.reverse.takeWhile (fun c => c != '/')).reverse ++ '.' :: e := by
    unfold afterLastSlash
    rw [hrev, tw_append_all _ heNoSl,
      List.takeWhile_cons_of_pos (p := fun c => c != '/') (by decide)]
    rw [List.reverse_append, List.reverse_cons, List.reverse_reverse,
      List.append_assoc]
    rfl
  have hBne : (stem.reverse.takeWhile (fun c => c != '/')).reverse ≠ [] := by
    cases hsr : stem.reverse with
    | nil =>
      exact absurd (by simpa using congrArg List.reverse hsr) hstem
    | cons c0 rest =>
      have hc0 : c0 ≠ '/' := by
        intro hcc
        refine hsl ?_
        rw [List.getLast?_eq_head?_reverse, hsr, hcc]
        rfl
      have hpos : ((fun c => c != '/') c0) = true := by simp [hc0]
      rw [List.takeWhile_cons_of_pos (p := fun c => c != '/') hpos]
      simp
  unfold extnameL
  rw [hbase]
  have hrev2 : ((stem.reverse.takeWhile (fun c => c != '/')).reverse ++
      '.' :: e).reverse =
      e.reverse ++ '.' :: (stem.reverse.takeWhile (fun c => c != '/')) := by
    rw [List.reverse_append, List.reverse_cons, List.reverse_reverse,
      List.append_assoc]
    rfl
  rw [hrev2]
  have hstop := tw_stop (p := fun c => c != '.') (a := e.reverse) (q := '.')
    (stem.reverse.takeWhile (fun c => c != '/')) heNoDot (by decide)
  rw [hstop.1, hstop.2]
  dsimp only
  have : (stem.reverse.takeWhile (fun c => c != '/')).isEmpty = false := by
    cases hx : stem.reverse.takeWhile (fun c => c != '/') with
    | nil => exact absurd (by simp [hx]) hBne
    | cons a b => rfl
  rw [this]
  simp

/-- Claim C8, counterexample: when the size-marker suffix starts the final
path segment (nothing before the `_`), stripping leaves a basename that is
a bare dot-file, `path.extname` returns the empty string, and the `.jpg`
default kicks in: `/a/_960x960q80.png` derives `.jpg`, not the plain
extension `.png`. -/
theorem c8_counterexample :
    deriveExtL "/a/_960x960q80.png".toList = ".jpg".toList ∧
    deriveExtL "/a/_960x960q80.png".toList ≠ ".png".toList := by
  constructor <;> decide

/-- Claim C8 (amended): for every pathname of the shape
`stem_<N>x<M>q<K>.ext` — nonempty digit runs `N`, `M`, digit run `K`, a
recognized image extension, and a nonempty stem not ending in `/` — the
extension-derivation step of `downloadImage` strips the whole
size-plus-quality suffix first and yields the plain `.ext`, never an
extension segment containing the size marker. -/
theorem c8_ext_derivation (stem n m k e : Str)
    (hstem : stem ≠ []) (hsl : stem.getLast? ≠ some '/')
    (hn : n ≠ []) (hnd : ∀ c ∈ n, Char.isDigit c = true)
    (hm : m ≠ []) (hmd : ∀ c ∈ m, Char.isDigit c = true)
    (hkd : ∀ c ∈ k, Char.isDigit c = true)
    (he : extAlts.contains (lowerL e) = true) :
    deriveExtL (stem ++ '_' :: (n ++ 'x' :: (m ++ 'q' :: (k ++ '.' :: e)))) =
      '.' :: e := by
  unfold deriveExtL
  rw [stripSizeQ_shape stem hn hnd hm hmd hkd he,
    extname_append_ext hstem hsl he]
  rfl

/-- Claim C8, witness: the amended theorem at
`/kf/img_960x960q80.jpg`. -/
theorem c8_ext_derivation_witness :
    deriveExtL ("/kf/img".toList ++ '_' :: ("960".toList ++ 'x' ::
        ("960".toList ++ 'q' :: ("80".toList ++ '.' :: "jpg".toList)))) =
      '.' :: "jpg".toList :=
  c8_ext_derivation _ _ _ _ _ (by decide) (by decide) (by decide) (by decide)
    (by decide) (by decide) (by decide) (by decide)

end Scraper
